import Mathlib

/-!
Verification of the filesystem key-value store (`simplekv/fs.py`):
`FilesystemStore` and `WebFilesystemStore`.

The embedding works over byte strings (`List (Fin 256)`), matching the
Python 2 `str` type used throughout the source.  The filesystem is a
finite association list from absolute file paths to file contents; the
OS primitives (`unlink`, `open`, `listdir`, `os.path.*`) are modelled as
pure functions over that map, with an explicit errno-carrying result
type so that the error-translation logic of the store can be embedded
exactly as written.
-/

abbrev Byte := Fin 256

abbrev ByteStr := List Byte

def mkByte (n : Nat) : Byte := ⟨n % 256, Nat.mod_lt _ (by decide)⟩

/-- The byte of the path separator `os.sep` (`'/'` on POSIX). -/
def sepByte : Byte := mkByte 47

def strToBytes (s : String) : ByteStr :=
  s.data.map (fun c => mkByte c.toNat)

/-- The filesystem: a finite map from file path to file contents. -/
abbrev FS := List (ByteStr × ByteStr)

def fsLookup : FS → ByteStr → Option ByteStr
  | [], _ => none
  | (q, w) :: rest, p => if q = p then some w else fsLookup rest p

def fsSet : FS → ByteStr → ByteStr → FS
  | [], p, v => [(p, v)]
  | (q, w) :: rest, p, v =>
      if q = p then (p, v) :: rest else (q, w) :: fsSet rest p v

def fsRemove : FS → ByteStr → FS
  | [], _ => []
  | (q, w) :: rest, p =>
      if q = p then fsRemove rest p else (q, w) :: fsRemove rest p

/-- Outcome of a raw OS call: success, or failure with an errno
(`2` is `ENOENT`, "file not found"). -/
inductive OSResult (α : Type) where
  | ok (a : α)
  | err (errno : Nat)
deriving DecidableEq, Repr

/-- The exceptions the store can raise: `KeyError` (Python's key-absence
error, the spec's `NotFoundError`), `IOError` and `OSError` (both
carrying the errno of the underlying OS failure). -/
inductive PyError where
  | keyError (key : ByteStr)
  | ioError (errno : Nat)
  | osError (errno : Nat)
deriving DecidableEq, Repr

/-- Embeds `os.unlink(p)`: removes the file, or fails with `ENOENT`
(errno 2) when no file is at `p`. -/
def osUnlink (fs : FS) (p : ByteStr) : OSResult FS :=
  match fsLookup fs p with
  | some _ => .ok (fsRemove fs p)
  | none => .err 2

/-- Embeds `open(p, 'rb')` followed by reading the stream to exhaustion:
yields the file's contents, or fails with `ENOENT` (errno 2) when absent. -/
def osOpen (fs : FS) (p : ByteStr) : OSResult ByteStr :=
  match fsLookup fs p with
  | some v => .ok v
  | none => .err 2

/-- Embeds `os.path.join(a, b)` (POSIX, two arguments). -/
def osPathJoin (a b : ByteStr) : ByteStr :=
  if b.head? = some sepByte then b
  else if a = [] ∨ a.getLast? = some sepByte then a ++ b
  else a ++ sepByte :: b

namespace FilesystemStore

/-- Source: `self.bufsize = 1024 * 1024  # 1m`. -/
def bufsize : Nat := 1024 * 1024

/-- Embeds `os.path.join(self.root, key)`. -/
def buildFilename (root key : ByteStr) : ByteStr :=
  osPathJoin root key

/-- The `try/except OSError` wrapper of `_delete`: errno 2 is swallowed
(the filesystem is left as it was), every other errno is re-raised. -/
def deleteExcept (fs : FS) (r : OSResult FS) : Except PyError FS :=
  match r with
  | .ok fs' => .ok fs'
  | .err e => if e = 2 then .ok fs else .error (.osError e)

/-- Embeds `_delete(key)`: unlink the built filename, swallowing errno 2. -/
def delete (fs : FS) (root key : ByteStr) : Except PyError FS :=
  deleteExcept fs (osUnlink fs (buildFilename root key))

/-- The `try/except IOError` wrapper of `_open`: errno 2 becomes
`KeyError(key)`, every other errno is re-raised. -/
def openExcept (key : ByteStr) (r : OSResult ByteStr) : Except PyError ByteStr :=
  match r with
  | .ok v => .ok v
  | .err e => if e = 2 then .error (.keyError key) else .error (.ioError e)

/-- Embeds `_open(key)`: open the built filename for binary reading (the
result is the stream read to exhaustion). -/
def openKey (fs : FS) (root key : ByteStr) : Except PyError ByteStr :=
  openExcept key (osOpen fs (buildFilename root key))

/-- Embeds `_has_key(key)`: `os.path.exists` on the built filename. -/
def hasKey (fs : FS) (root key : ByteStr) : Bool :=
  (fsLookup fs (buildFilename root key)).isSome

/-- Embeds `_put(key, data)`: write `data` to the built filename (creating
or truncating), return the key. -/
def put (fs : FS) (root key data : ByteStr) : FS × ByteStr :=
  (fsSet fs (buildFilename root key) data, key)

end FilesystemStore

/-- The read/write loop of `_put_file`: repeatedly `read(bufsize)` from the
source stream and write the chunk, stopping right after the first chunk
shorter than `bufsize`.  Returns the written chunks in write order. -/
def readChunks (bufsize : Nat) (hb : 0 < bufsize) (s : ByteStr) : List ByteStr :=
  let buf := s.take bufsize
  if buf.length < bufsize then [buf]
  else buf :: readChunks bufsize hb (s.drop bufsize)
termination_by s.length
decreasing_by
  simp only [List.length_take, List.length_drop, buf] at *
  omega

namespace FilesystemStore

/-- Embeds `_put_file(key, file)`: write the source stream to the built filename in
`bufsize`-sized chunks, return the key.  The stream is modelled as the byte
string it yields; `read(n)` returns its next `min n remaining` bytes. -/
def putFile (fs : FS) (root key stream : ByteStr) : FS × ByteStr :=
  (fsSet fs (buildFilename root key)
    (readChunks bufsize (by decide) stream).flatten, key)

/-- The directory path `dir` with exactly one trailing separator. -/
def dirSlash (dir : ByteStr) : ByteStr :=
  if dir.getLast? = some sepByte then dir else dir ++ [sepByte]

/-- The name under which a stored path `p` appears in a listing of the
directory with slash-terminated path `d`: the part of `p` after `d`,
provided it is a nonempty final component. -/
def entryName (d p : ByteStr) : Option ByteStr :=
  if p.take d.length = d ∧ p.drop d.length ≠ [] ∧
      (p.drop d.length).all (fun b => b != sepByte) = true then
    some (p.drop d.length)
  else none

/-- Embeds `os.listdir(dir)`: the names of the entries of directory `dir`, i.e. the
final components of the stored paths lying directly under `dir`. -/
def listdir (fs : FS) (dir : ByteStr) : List ByteStr :=
  fs.filterMap (fun e => entryName (dirSlash dir) e.1)

/-- Embeds `keys()`: `os.listdir(self.root)`. -/
def keys (fs : FS) (root : ByteStr) : List ByteStr :=
  listdir fs root

/-- Embeds `iter_keys()`: `iter(self.keys())`, yielding the same sequence. -/
def iterKeys (fs : FS) (root : ByteStr) : List ByteStr :=
  keys fs root

end FilesystemStore

/-- Set `urllib.always_safe` as a predicate on bytes: ASCII letters, digits,
and `_`, `.`, `-`. -/
def alwaysSafe (b : Byte) : Bool :=
  (65 ≤ b.val && b.val ≤ 90) || (97 ≤ b.val && b.val ≤ 122) ||
  (48 ≤ b.val && b.val ≤ 57) || b.val == 95 || b.val == 46 || b.val == 45

/-- Upper-case hexadecimal digit of `n % 16`, as used by `urllib.quote`. -/
def hexUpper (n : Nat) : Byte :=
  if n % 16 < 10 then mkByte (48 + n % 16) else mkByte (55 + n % 16)

/-- Embeds `urllib.quote(s, safe='')`: every byte outside `always_safe` becomes
`%XX` with upper-case hex (the empty `safe` set protects nothing else). -/
def quote (s : ByteStr) : ByteStr :=
  (s.map (fun b =>
    if alwaysSafe b then [b]
    else [mkByte 37, hexUpper (b.val / 16), hexUpper (b.val % 16)])).flatten

/-- Value of a hexadecimal digit byte, if it is one. -/
def hexVal (b : Byte) : Option Nat :=
  if 48 ≤ b.val ∧ b.val ≤ 57 then some (b.val - 48)
  else if 65 ≤ b.val ∧ b.val ≤ 70 then some (b.val - 55)
  else if 97 ≤ b.val ∧ b.val ≤ 102 then some (b.val - 87)
  else none

/-- Percent-decoding (the spec's "percent-decoding", `urllib.unquote`):
each `%` followed by two hex digits becomes the denoted byte; a `%` not
followed by two hex digits is kept verbatim. -/
def percentDecode : ByteStr → ByteStr
  | [] => []
  | b :: rest =>
    if b = mkByte 37 then
      match rest with
      | h1 :: h2 :: rest' =>
        match hexVal h1, hexVal h2 with
        | some x, some y => mkByte (16 * x + y) :: percentDecode rest'
        | _, _ => b :: percentDecode (h1 :: h2 :: rest')
      | [h1] => b :: percentDecode [h1]
      | [] => [b]
    else b :: percentDecode rest
termination_by s => s.length
decreasing_by all_goals (simp_all; try omega)

/-- Embeds `s.split('/')` (Python `str.split` with an explicit separator): always
returns at least one part, parts contain no separator. -/
def splitSlash : ByteStr → List ByteStr
  | [] => [[]]
  | b :: rest =>
    if b = sepByte then [] :: splitSlash rest
    else
      match splitSlash rest with
      | p :: ps => (b :: p) :: ps
      | [] => [[b]]

/-- Embeds `'/'.join(parts)`. -/
def joinParts : List ByteStr → ByteStr
  | [] => []
  | [p] => p
  | p :: rest => p ++ sepByte :: joinParts rest

/-- Embeds `posixpath.normpath(p)`: collapse `//`, `.` and `..` components,
preserving the special meaning of exactly two leading slashes. -/
def posixNormpath (p : ByteStr) : ByteStr :=
  if p = [] then [mkByte 46]
  else
    let initialSlashes : Nat :=
      if p.take 1 = [sepByte] then
        if p.take 2 = [sepByte, sepByte] ∧ p.take 3 ≠ [sepByte, sepByte, sepByte]
        then 2 else 1
      else 0
    let comps := splitSlash p
    let newComps := comps.foldl (fun acc comp =>
      if comp = [] ∨ comp = [mkByte 46] then acc
      else if comp ≠ [mkByte 46, mkByte 46] ∨ (initialSlashes = 0 ∧ acc = []) ∨
          acc.getLast? = some [mkByte 46, mkByte 46] then acc ++ [comp]
      else if acc ≠ [] then acc.dropLast
      else acc) []
    let path := List.replicate initialSlashes sepByte ++ joinParts newComps
    if path = [] then [mkByte 46] else path

/-- Embeds `posixpath.abspath(p)` relative to working directory `cwd`:
join onto `cwd` unless already absolute, then normalize. -/
def osPathAbspath (cwd p : ByteStr) : ByteStr :=
  posixNormpath (if p.head? = some sepByte then p else osPathJoin cwd p)

namespace FilesystemStore

/-- Embeds `_url_for(key)`: absolute path of the built filename, split on
`os.sep`, each part percent-quoted with an empty safe set, rejoined with
`/` and prefixed with `file://`. -/
def urlFor (cwd root key : ByteStr) : ByteStr :=
  let full := osPathAbspath cwd (buildFilename root key)
  let parts := splitSlash full
  let location := joinParts (parts.map quote)
  strToBytes "file://" ++ location

end FilesystemStore

/-- Embeds `WebFilesystemStore`: a `FilesystemStore` (field `root`) plus the
verbatim URL prefix supplied at construction. -/
structure WebFilesystemStore where
  root : ByteStr
  url_prefix : ByteStr
deriving DecidableEq, Repr

/-- Embeds `WebFilesystemStore._url_for(key)`, i.e. the verbatim prefix
followed by `urllib.quote(key, safe='')`. -/
def WebFilesystemStore.urlFor (s : WebFilesystemStore) (key : ByteStr) : ByteStr :=
  WebFilesystemStore.url_prefix s ++ quote key

/-- Modelled from the spec: a legal byte of the key grammar (§3) — ASCII
letters, digits, and the punctuation `-_.()/=!"$%&'*+,:;<>?@[]^\x7b\x7d|~`.
The Key Validator lives in the base class (`simplekv/__init__.py`), which is
not under `src/`. -/
def validKeyByte (b : Byte) : Bool :=
  (65 ≤ b.val && b.val ≤ 90) || (97 ≤ b.val && b.val ≤ 122) ||
  (48 ≤ b.val && b.val ≤ 57) ||
  [45, 95, 46, 40, 41, 47, 61, 33, 34, 36, 37, 38, 39, 42, 43, 44, 58, 59,
    60, 62, 63, 64, 91, 93, 94, 123, 125, 124, 126].contains b.val

/-- Modelled from the spec: a valid key of the default keyspace (§3) —
non-empty, at most 250 characters, only legal bytes, and no `/`. -/
def validKey (k : ByteStr) : Bool :=
  !k.isEmpty && decide (k.length ≤ 250) && k.all validKeyByte &&
    k.all (fun b => b != sepByte)

/-! ### Association-list lemmas -/

theorem fsLookup_fsSet_self (fs : FS) (p v : ByteStr) :
    fsLookup (fsSet fs p v) p = some v := by
  induction fs with
  | nil => simp [fsSet, fsLookup]
  | cons e rest ih =>
      obtain ⟨q, w⟩ := e
      by_cases h : q = p <;> simp [fsSet, fsLookup, h, ih]

theorem fsLookup_fsRemove_self (fs : FS) (p : ByteStr) :
    fsLookup (fsRemove fs p) p = none := by
  induction fs with
  | nil => simp [fsRemove, fsLookup]
  | cons e rest ih =>
      obtain ⟨q, w⟩ := e
      by_cases h : q = p <;> simp [fsRemove, fsLookup, h, ih]

/-! ### Chunked-read lemmas -/

theorem readChunks_eq (bufsize : Nat) (hb : 0 < bufsize) (s : ByteStr) :
    readChunks bufsize hb s =
      if s.length < bufsize then [s.take bufsize]
      else s.take bufsize :: readChunks bufsize hb (s.drop bufsize) := by
  rw [readChunks]
  by_cases h : s.length < bufsize <;> simp [List.length_take, h]

theorem readChunks_flatten (bufsize : Nat) (hb : 0 < bufsize) (s : ByteStr) :
    (readChunks bufsize hb s).flatten = s := by
  induction s using readChunks.induct bufsize hb with
  | case1 s buf h =>
      simp only [buf, List.length_take] at h
      have hs : s.length < bufsize := by omega
      rw [readChunks_eq, if_pos hs]
      simp [List.take_of_length_le (Nat.le_of_lt hs)]
  | case2 s buf h ih =>
      simp only [buf, List.length_take] at h
      have hs : ¬ s.length < bufsize := by omega
      rw [readChunks_eq, if_neg hs]
      simp [ih]

theorem getLastQ_cons_of_ne_nil {α : Type} (a : α) (l : List α) (h : l ≠ []) :
    (a :: l).getLast? = l.getLast? := by
  cases l with
  | nil => exact absurd rfl h
  | cons b t => rfl

theorem readChunks_length (bufsize : Nat) (hb : 0 < bufsize) (s : ByteStr) :
    (readChunks bufsize hb s).length = s.length / bufsize + 1 := by
  induction s using readChunks.induct bufsize hb with
  | case1 s buf h =>
      simp only [buf, List.length_take] at h
      have hs : s.length < bufsize := by omega
      rw [readChunks_eq, if_pos hs]
      simp [Nat.div_eq_of_lt hs]
  | case2 s buf h ih =>
      simp only [buf, List.length_take] at h
      have hs : ¬ s.length < bufsize := by omega
      rw [readChunks_eq, if_neg hs]
      simp only [List.length_cons, ih, List.length_drop]
      conv_rhs => rw [Nat.div_eq_sub_div hb (by omega)]

theorem readChunks_dropLast (bufsize : Nat) (hb : 0 < bufsize) (s : ByteStr) :
    ∀ c ∈ (readChunks bufsize hb s).dropLast, c.length = bufsize := by
  induction s using readChunks.induct bufsize hb with
  | case1 s buf h =>
      simp only [buf, List.length_take] at h
      have hs : s.length < bufsize := by omega
      rw [readChunks_eq, if_pos hs]
      simp
  | case2 s buf h ih =>
      simp only [buf, List.length_take] at h
      have hs : ¬ s.length < bufsize := by omega
      rw [readChunks_eq, if_neg hs]
      have hne : readChunks bufsize hb (s.drop bufsize) ≠ [] := by
        rw [readChunks_eq]
        split <;> simp
      rw [List.dropLast_cons_of_ne_nil hne]
      intro c hc
      rcases List.mem_cons.mp hc with hc | hc
      · simp [hc, List.length_take]; omega
      · exact ih c hc

theorem readChunks_getLast (bufsize : Nat) (hb : 0 < bufsize) (s : ByteStr) :
    ∃ c, (readChunks bufsize hb s).getLast? = some c ∧ c.length < bufsize := by
  induction s using readChunks.induct bufsize hb with
  | case1 s buf h =>
      simp only [buf, List.length_take] at h
      have hs : s.length < bufsize := by omega
      rw [readChunks_eq, if_pos hs]
      exact ⟨s.take bufsize, rfl, by simp [List.length_take]; omega⟩
  | case2 s buf h ih =>
      simp only [buf, List.length_take] at h
      have hs : ¬ s.length < bufsize := by omega
      rw [readChunks_eq, if_neg hs]
      obtain ⟨c, hc, hlen⟩ := ih
      have hne : readChunks bufsize hb (s.drop bufsize) ≠ [] := by
        rw [readChunks_eq]
        split <;> simp
      exact ⟨c, by rw [getLastQ_cons_of_ne_nil _ _ hne, hc], hlen⟩

/-! ### Claim theorems -/

/-- C1: for every key `k` and value `v`, `put(k, v)` followed by `open(k)`
reads back exactly `v`, whatever was stored before (so an existing value is
fully overwritten), and `put` returns the key. -/
theorem put_open_roundtrip (fs : FS) (root key v : ByteStr) :
    (FilesystemStore.put fs root key v).2 = key ∧
    FilesystemStore.openKey (FilesystemStore.put fs root key v).1 root key =
      Except.ok v := by
  refine ⟨rfl, ?_⟩
  simp [FilesystemStore.openKey, FilesystemStore.put, FilesystemStore.openExcept,
    osOpen, fsLookup_fsSet_self]

/-- C4: for every key and every finite byte sequence (any length, so in
particular 0, 1, chunk-size and chunk-size + 1), `put_from_stream` produces
the same store as `put` on the same bytes, and both return the key. -/
theorem putFile_eq_put (fs : FS) (root key b : ByteStr) :
    FilesystemStore.putFile fs root key b = FilesystemStore.put fs root key b ∧
    (FilesystemStore.putFile fs root key b).2 = key ∧
    (FilesystemStore.put fs root key b).2 = key := by
  refine ⟨?_, rfl, rfl⟩
  simp [FilesystemStore.putFile, FilesystemStore.put, readChunks_flatten]

/-- C8: the buffer size defaults to 1 MiB; `put_from_stream` writes, in
receipt order, chunks that all have length `bufsize` except the final one,
terminates on every finite stream after exactly `n / bufsize + 1` reads,
stops right after the first short chunk, and the concatenation of the
written chunks is the whole stream. -/
theorem putFile_chunking :
    FilesystemStore.bufsize = 1024 * 1024 ∧
    (∀ fs root key s, FilesystemStore.putFile fs root key s =
      (fsSet fs (FilesystemStore.buildFilename root key)
        (readChunks FilesystemStore.bufsize (by decide) s).flatten, key)) ∧
    ∀ s : ByteStr,
      (readChunks FilesystemStore.bufsize (by decide) s).flatten = s ∧
      (readChunks FilesystemStore.bufsize (by decide) s).length =
        s.length / FilesystemStore.bufsize + 1 ∧
      (∀ c ∈ (readChunks FilesystemStore.bufsize (by decide) s).dropLast,
        c.length = FilesystemStore.bufsize) ∧
      (∃ c, (readChunks FilesystemStore.bufsize (by decide) s).getLast? = some c ∧
        c.length < FilesystemStore.bufsize) := by
  refine ⟨rfl, fun fs root key s => rfl, fun s => ⟨?_, ?_, ?_, ?_⟩⟩
  · exact readChunks_flatten _ _ s
  · exact readChunks_length _ _ s
  · exact readChunks_dropLast _ _ s
  · exact readChunks_getLast _ _ s

/-- C9: immediately after `put(k, v)` or `put_from_stream(k, v)`,
`exists(k)` is true — also for the empty value. -/
theorem exists_after_put (fs : FS) (root key v : ByteStr) :
    FilesystemStore.hasKey (FilesystemStore.put fs root key v).1 root key = true ∧
    FilesystemStore.hasKey (FilesystemStore.putFile fs root key v).1 root key = true := by
  constructor <;>
    simp [FilesystemStore.hasKey, FilesystemStore.put, FilesystemStore.putFile,
      fsLookup_fsSet_self]

/-- C2: `open` on an absent key fails with the key-not-found error
(`KeyError(key)`, the spec's `NotFoundError`): exactly the OS outcome with
errno 2 is translated to it, and every other OS failure propagates with its
errno intact. -/
theorem open_not_found (fs : FS) (root key : ByteStr) (e : Nat)
    (habs : fsLookup fs (FilesystemStore.buildFilename root key) = none)
    (he : e ≠ 2) :
    FilesystemStore.openKey fs root key = Except.error (.keyError key) ∧
    FilesystemStore.openExcept key (.err e) = Except.error (.ioError e) ∧
    FilesystemStore.openExcept key (.err 2) = Except.error (.keyError key) := by
  refine ⟨?_, ?_, rfl⟩
  · simp [FilesystemStore.openKey, osOpen, habs, FilesystemStore.openExcept]
  · simp [FilesystemStore.openExcept, he]

theorem open_not_found_witness :
    FilesystemStore.openKey [] (strToBytes "/data") (strToBytes "k") =
      Except.error (.keyError (strToBytes "k")) ∧
    FilesystemStore.openExcept (strToBytes "k") (.err 13) =
      Except.error (.ioError 13) :=
  ⟨(open_not_found [] (strToBytes "/data") (strToBytes "k") 13 rfl (by decide)).1,
   (open_not_found [] (strToBytes "/data") (strToBytes "k") 13 rfl (by decide)).2.1⟩

/-- C3: `delete` is idempotent — deleting an absent key is a silent no-op
(only the OS outcome with errno 2 is swallowed), a second delete in a row
never errors, and every other OS failure propagates with its errno intact. -/
theorem delete_idempotent (fs : FS) (root key : ByteStr) (e : Nat) (he : e ≠ 2) :
    (fsLookup fs (FilesystemStore.buildFilename root key) = none →
      FilesystemStore.delete fs root key = Except.ok fs) ∧
    (∀ fs', FilesystemStore.delete fs root key = Except.ok fs' →
      FilesystemStore.delete fs' root key = Except.ok fs') ∧
    FilesystemStore.deleteExcept fs (.err e) = Except.error (.osError e) := by
  refine ⟨?_, ?_, ?_⟩
  · intro habs
    simp [FilesystemStore.delete, osUnlink, habs, FilesystemStore.deleteExcept]
  · intro fs' hdel
    rcases hlook : fsLookup fs (FilesystemStore.buildFilename root key) with _ | v
    · simp [FilesystemStore.delete, osUnlink, hlook,
        FilesystemStore.deleteExcept] at hdel
      simp [FilesystemStore.delete, osUnlink, hlook,
        FilesystemStore.deleteExcept, ← hdel]
    · simp [FilesystemStore.delete, osUnlink, hlook,
        FilesystemStore.deleteExcept] at hdel
      simp [FilesystemStore.delete, osUnlink, ← hdel,
        fsLookup_fsRemove_self, FilesystemStore.deleteExcept]
  · simp [FilesystemStore.deleteExcept, he]

theorem delete_idempotent_witness :
    FilesystemStore.delete [] (strToBytes "/data") (strToBytes "k") = Except.ok [] ∧
    FilesystemStore.deleteExcept ([] : FS) (.err 13) = Except.error (.osError 13) :=
  ⟨(delete_idempotent [] (strToBytes "/data") (strToBytes "k") 13 (by decide)).2.1 []
     ((delete_idempotent [] (strToBytes "/data") (strToBytes "k") 13 (by decide)).1 rfl),
   (delete_idempotent [] (strToBytes "/data") (strToBytes "k") 13 (by decide)).2.2⟩

/-- C6: the web-locator backend's `locate(k)` is the configured prefix,
verbatim, followed by the percent-encoding of `k` as one opaque segment;
with prefix `https://example.invalid/files/` and key `a b` it yields
`https://example.invalid/files/a%20b`. -/
theorem web_urlFor_spec :
    (∀ (s : WebFilesystemStore) (k : ByteStr),
      WebFilesystemStore.urlFor s k = WebFilesystemStore.url_prefix s ++ quote k) ∧
    WebFilesystemStore.urlFor
      ⟨strToBytes "/var/www/files", strToBytes "https://example.invalid/files/"⟩
      (strToBytes "a b") = strToBytes "https://example.invalid/files/a%20b" := by
  refine ⟨fun s k => rfl, ?_⟩
  decide

/-- C10: the web-locator backend's `locate(k)` depends only on the
configured URL prefix and the key: two stores with equal prefixes and
arbitrary (e.g. different) roots produce identical locators.  It performs
no storage access — it is a pure function of the store configuration, never
touching the `FS` map. -/
theorem web_urlFor_root_independent (s1 s2 : WebFilesystemStore) (k : ByteStr)
    (hpre : WebFilesystemStore.url_prefix s1 = WebFilesystemStore.url_prefix s2) :
    WebFilesystemStore.urlFor s1 k = WebFilesystemStore.urlFor s2 k := by
  simp [WebFilesystemStore.urlFor, hpre]

theorem web_urlFor_root_independent_witness :
    WebFilesystemStore.urlFor ⟨strToBytes "/a", strToBytes "https://h/"⟩ (strToBytes "k") =
      WebFilesystemStore.urlFor ⟨strToBytes "/b", strToBytes "https://h/"⟩ (strToBytes "k") :=
  web_urlFor_root_independent _ _ _ rfl

/-! ### Directory-listing lemmas -/

theorem entryName_eq_some (d p n : ByteStr) :
    FilesystemStore.entryName d p = some n ↔
      p = d ++ n ∧ n ≠ [] ∧ n.all (fun b => b != sepByte) = true := by
  unfold FilesystemStore.entryName
  split
  · rename_i hcond
    obtain ⟨htake, hne, hall⟩ := hcond
    constructor
    · rintro ⟨rfl⟩
      refine ⟨?_, hne, hall⟩
      conv_lhs => rw [← List.take_append_drop d.length p]
      rw [htake]
    · rintro ⟨rfl, -, -⟩
      simp
  · rename_i hcond
    constructor
    · rintro ⟨⟩
    · rintro ⟨rfl, hne, hall⟩
      exact absurd ⟨by simp, by simpa using hne, by simpa using hall⟩ hcond

theorem buildFilename_eq (root k : ByteStr) (hroot : root ≠ [])
    (hhead : k.head? ≠ some sepByte) :
    FilesystemStore.buildFilename root k = FilesystemStore.dirSlash root ++ k := by
  unfold FilesystemStore.buildFilename osPathJoin FilesystemStore.dirSlash
  rw [if_neg hhead]
  by_cases hlast : root.getLast? = some sepByte
  · rw [if_pos (Or.inr hlast), if_pos hlast]
  · rw [if_neg (by simp [hroot, hlast]), if_neg hlast]
    simp

theorem validKey_parts (k : ByteStr) (hk : validKey k = true) :
    k ≠ [] ∧ k.head? ≠ some sepByte ∧ k.all (fun b => b != sepByte) = true := by
  unfold validKey at hk
  simp only [Bool.and_eq_true] at hk
  obtain ⟨⟨⟨hne, -⟩, -⟩, hall⟩ := hk
  cases k with
  | nil => simp at hne
  | cons b t =>
      refine ⟨by simp, ?_, hall⟩
      simp only [List.all_cons, Bool.and_eq_true, bne_iff_ne] at hall
      simpa using hall.1

/-- C7: starting from the empty store, after `put("a", v1)`, `put("b", v2)`
and `delete("a")`, `keys()` is exactly `["b"]`; and in general, for a valid
key `k`, `k` is listed by `keys()` precisely when a value is stored at the
key's resolved path. -/
theorem keys_after_put_delete (fs : FS) (root k : ByteStr)
    (hroot : root ≠ []) (hk : validKey k = true) :
    (∃ fs2, FilesystemStore.delete
        (FilesystemStore.put (FilesystemStore.put [] (strToBytes "/data")
          (strToBytes "a") [mkByte 1]).1 (strToBytes "/data")
          (strToBytes "b") [mkByte 2]).1 (strToBytes "/data") (strToBytes "a") =
        Except.ok fs2 ∧
      FilesystemStore.keys fs2 (strToBytes "/data") = [strToBytes "b"]) ∧
    (k ∈ FilesystemStore.keys fs root ↔
      ∃ v, (FilesystemStore.buildFilename root k, v) ∈ fs) := by
  obtain ⟨hne, hhead, hall⟩ := validKey_parts k hk
  constructor
  · exact ⟨[(strToBytes "/data/b", [mkByte 2])], rfl, rfl⟩
  · rw [buildFilename_eq root k hroot hhead]
    simp only [FilesystemStore.keys, FilesystemStore.listdir, List.mem_filterMap]
    constructor
    · rintro ⟨⟨p, v⟩, hmem, hname⟩
      rw [entryName_eq_some] at hname
      exact ⟨v, hname.1 ▸ hmem⟩
    · rintro ⟨v, hmem⟩
      exact ⟨(FilesystemStore.dirSlash root ++ k, v), hmem,
        (entryName_eq_some _ _ _).mpr ⟨rfl, hne, hall⟩⟩

theorem keys_after_put_delete_witness :
    strToBytes "/data" ≠ [] ∧ validKey (strToBytes "b") = true ∧
    (strToBytes "b" ∈ FilesystemStore.keys [(strToBytes "/data/b", [mkByte 2])]
        (strToBytes "/data") ↔
      ∃ v, (FilesystemStore.buildFilename (strToBytes "/data") (strToBytes "b"), v) ∈
        [(strToBytes "/data/b", [mkByte 2])]) :=
  ⟨by decide, by decide,
   (keys_after_put_delete [(strToBytes "/data/b", [mkByte 2])] (strToBytes "/data")
     (strToBytes "b") (by decide) (by decide)).2⟩

/-! ### Split/join and percent-encoding lemmas -/

theorem splitSlash_ne_nil (s : ByteStr) : splitSlash s ≠ [] := by
  cases s with
  | nil => simp [splitSlash]
  | cons b rest =>
      unfold splitSlash
      split
      · simp
      · split <;> simp

theorem joinParts_splitSlash (s : ByteStr) : joinParts (splitSlash s) = s := by
  induction s with
  | nil => rfl
  | cons b rest ih =>
      unfold splitSlash
      by_cases hb : b = sepByte
      · subst hb
        rw [if_pos rfl]
        rcases h : splitSlash rest with _ | ⟨p, ps⟩
        · exact absurd h (splitSlash_ne_nil rest)
        · rw [h] at ih
          simp [joinParts, ih]
      · rw [if_neg hb]
        rcases h : splitSlash rest with _ | ⟨p, ps⟩
        · exact absurd h (splitSlash_ne_nil rest)
        · rw [h] at ih
          cases ps with
          | nil => simpa [joinParts] using ih
          | cons q qs =>
              simp only [joinParts, List.cons_append] at ih ⊢
              rw [ih]

theorem splitSlash_of_no_sep (s : ByteStr) (h : ∀ b ∈ s, b ≠ sepByte) :
    splitSlash s = [s] := by
  induction s with
  | nil => rfl
  | cons b rest ih =>
      unfold splitSlash
      rw [if_neg (h b (by simp)), ih (fun x hx => h x (by simp [hx]))]

theorem splitSlash_append (p t : ByteStr) (h : ∀ b ∈ p, b ≠ sepByte) :
    splitSlash (p ++ sepByte :: t) = p :: splitSlash t := by
  induction p with
  | nil => simp [splitSlash]
  | cons b p' ih =>
      simp only [List.cons_append]
      unfold splitSlash
      rw [if_neg (h b (by simp)), ih (fun x hx => h x (by simp [hx]))]
      simp only [splitSlash]
      congr 1
      cases t <;> simp [splitSlash]

theorem splitSlash_joinParts (parts : List ByteStr) (hne : parts ≠ [])
    (h : ∀ p ∈ parts, ∀ b ∈ p, b ≠ sepByte) :
    splitSlash (joinParts parts) = parts := by
  induction parts with
  | nil => exact absurd rfl hne
  | cons p rest ih =>
      cases rest with
      | nil => simpa [joinParts] using splitSlash_of_no_sep p (h p (by simp))
      | cons q qs =>
          simp only [joinParts]
          rw [splitSlash_append p _ (h p (by simp)),
            ih (by simp) (fun x hx => h x (by simp [hx]))]

theorem hexUpper_ne_sep (n : Nat) : hexUpper n ≠ sepByte := by
  unfold hexUpper sepByte mkByte
  have h16 : n % 16 < 16 := Nat.mod_lt _ (by decide)
  split <;> (intro h; simp only [Fin.mk.injEq] at h; omega)

theorem alwaysSafe_ne_37 (b : Byte) (h : alwaysSafe b = true) : b ≠ mkByte 37 := by
  intro hb
  subst hb
  exact absurd h (by decide)

theorem alwaysSafe_ne_sep (b : Byte) (h : alwaysSafe b = true) : b ≠ sepByte := by
  intro hb
  subst hb
  exact absurd h (by decide)

theorem quote_no_sep (s : ByteStr) : ∀ b ∈ quote s, b ≠ sepByte := by
  intro b hb
  unfold quote at hb
  simp only [List.mem_flatten, List.mem_map] at hb
  obtain ⟨l, ⟨c, hc, hlc⟩, hbl⟩ := hb
  subst hlc
  by_cases hsafe : alwaysSafe c
  · rw [if_pos hsafe] at hbl
    simp only [List.mem_singleton] at hbl
    subst hbl
    exact alwaysSafe_ne_sep _ hsafe
  · rw [if_neg hsafe] at hbl
    simp only [List.mem_cons, List.mem_singleton, List.not_mem_nil, or_false] at hbl
    rcases hbl with rfl | rfl | rfl
    · decide
    · exact hexUpper_ne_sep _
    · exact hexUpper_ne_sep _

theorem hexVal_hexUpper (n : Nat) (h : n < 16) : hexVal (hexUpper n) = some n := by
  have hn : n % 16 = n := Nat.mod_eq_of_lt h
  unfold hexUpper
  rw [hn]
  by_cases h10 : n < 10
  · rw [if_pos h10]
    unfold hexVal mkByte
    have h48 : (48 + n) % 256 = 48 + n := Nat.mod_eq_of_lt (by omega)
    simp only [h48]
    rw [if_pos (by omega)]
    simp only [Option.some.injEq]
    omega
  · rw [if_neg h10]
    unfold hexVal mkByte
    have h55 : (55 + n) % 256 = 55 + n := Nat.mod_eq_of_lt (by omega)
    simp only [h55]
    rw [if_neg (by omega), if_pos (by omega)]
    simp only [Option.some.injEq]
    omega

theorem quote_cons (b : Byte) (t : ByteStr) :
    quote (b :: t) =
      (if alwaysSafe b then [b]
        else [mkByte 37, hexUpper (b.val / 16), hexUpper (b.val % 16)]) ++ quote t := rfl

theorem percentDecode_cons_safe (b : Byte) (t : ByteStr) (hb : b ≠ mkByte 37) :
    percentDecode (b :: t) = b :: percentDecode t := by
  rw [percentDecode.eq_def]
  simp [hb]

theorem percentDecode_cons_hex (h1 h2 : Byte) (x y : Nat) (t : ByteStr)
    (hx : hexVal h1 = some x) (hy : hexVal h2 = some y) :
    percentDecode (mkByte 37 :: h1 :: h2 :: t) =
      mkByte (16 * x + y) :: percentDecode t := by
  rw [percentDecode.eq_def]
  simp [hx, hy]

theorem percentDecode_quote (s : ByteStr) : percentDecode (quote s) = s := by
  induction s with
  | nil =>
      rw [show quote [] = ([] : ByteStr) from rfl, percentDecode.eq_def]
  | cons b rest ih =>
      rw [quote_cons]
      by_cases hsafe : alwaysSafe b
      · rw [if_pos hsafe, List.singleton_append,
          percentDecode_cons_safe b _ (alwaysSafe_ne_37 b hsafe), ih]
      · rw [if_neg hsafe]
        simp only [List.cons_append, List.nil_append]
        rw [percentDecode_cons_hex _ _ _ _ _
          (hexVal_hexUpper _ (by have := b.isLt; omega))
          (hexVal_hexUpper _ (Nat.mod_lt _ (by decide))), ih]
        congr 1
        have hdm : 16 * (b.val / 16) + b.val % 16 = b.val := Nat.div_add_mod b.val 16
        apply Fin.ext
        simp [mkByte, hdm, Nat.mod_eq_of_lt b.isLt]

/-- C5: the plain filesystem backend's `locate(k)` is `file://` followed by
the absolute resolved path with each `/`-separated segment percent-encoded
independently, and it round-trips: percent-decoding each `/`-delimited
segment after `file://` and rejoining with `/` reproduces the absolute
resolved path. -/
theorem urlFor_roundtrip (cwd root key : ByteStr) :
    FilesystemStore.urlFor cwd root key =
      strToBytes "file://" ++
        joinParts ((splitSlash (osPathAbspath cwd
          (FilesystemStore.buildFilename root key))).map quote) ∧
    joinParts ((splitSlash ((FilesystemStore.urlFor cwd root key).drop 7)).map
        percentDecode) =
      osPathAbspath cwd (FilesystemStore.buildFilename root key) := by
  refine ⟨rfl, ?_⟩
  have hdrop : (FilesystemStore.urlFor cwd root key).drop 7 =
      joinParts ((splitSlash (osPathAbspath cwd
        (FilesystemStore.buildFilename root key))).map quote) := by
    rw [show FilesystemStore.urlFor cwd root key =
      strToBytes "file://" ++ joinParts ((splitSlash (osPathAbspath cwd
        (FilesystemStore.buildFilename root key))).map quote) from rfl]
    rw [show (7 : Nat) = (strToBytes "file://").length from rfl, List.drop_left]
  have hne : (splitSlash (osPathAbspath cwd
      (FilesystemStore.buildFilename root key))).map quote ≠ [] := by
    intro hcon
    exact splitSlash_ne_nil _ (List.map_eq_nil_iff.mp hcon)
  have hsep : ∀ p ∈ (splitSlash (osPathAbspath cwd
      (FilesystemStore.buildFilename root key))).map quote, ∀ b ∈ p, b ≠ sepByte := by
    intro p hp b hb
    obtain ⟨q, hq, rfl⟩ := List.mem_map.mp hp
    exact quote_no_sep q b hb
  rw [hdrop, splitSlash_joinParts _ hne hsep, List.map_map]
  simp only [Function.comp_def, percentDecode_quote, List.map_id']
  exact joinParts_splitSlash _
